import Mathlib

/-!
# Verification of the mini-kanban-board core

Shallow embedding of the Kanban board store (`src/store/useKanbanStore.ts`)
and proofs of the specified properties.

Modelling conventions:
* `Date` timestamps are natural numbers; each mutating operation receives the
  current time `now : Nat` (the source calls `new Date()`).
* `uuidv4()` and `generateTaskCode()` are nondeterministic in the source, so
  freshly generated ids / codes are passed as explicit arguments.
* `Partial<Task>` is embedded as `TaskPatch`, a record of `JsOpt` fields:
  a JavaScript key can be absent, present with value `undefined` (the
  project compiles without `exactOptionalPropertyTypes`, and its dialogs do
  pass such keys), or present with a defined value, and the object spread
  `{ ...task, ...patch }` copies every present key, an `undefined` value
  included.
-/

namespace Kanban

/-- Enum `TaskStatus` from `src/types/index.ts`. -/
inductive TaskStatus where
  | backlog
  | todo
  | in_progress
  | done
deriving DecidableEq

/-- Enum `TaskPriority` from `src/types/index.ts`. -/
inductive TaskPriority where
  | low
  | medium
  | high
deriving DecidableEq

/-- Interface `Task` from `src/types/index.ts`; dates are `Nat` timestamps. -/
structure Task where
  id : String
  title : String
  description : Option String := none
  status : TaskStatus
  priority : TaskPriority
  createdAt : Nat
  updatedAt : Option Nat := none
  dueDate : Option Nat := none
deriving DecidableEq

/-- Interface `Column` from `src/types/index.ts`. -/
structure Column where
  id : String
  title : String
  status : TaskStatus
  tasks : List Task
deriving DecidableEq

/-- Interface `Board` from `src/types/index.ts`. -/
structure Board where
  id : String
  title : String
  columns : List Column
deriving DecidableEq

/-- One field of a JavaScript partial object: the key can be absent from the
object, present with value `undefined`, or present with a defined value.
Object spread copies every *present* key, `undefined` values included. -/
inductive JsOpt (α : Type) where
  | absent
  | undef
  | val (a : α)
deriving DecidableEq

/-- Embedding of TypeScript `Partial<Task>`: each field records whether the
key is absent, present with `undefined`, or present with a value in the
partial object passed to `updateTask`. -/
structure TaskPatch where
  id : JsOpt String := .absent
  title : JsOpt String := .absent
  description : JsOpt String := .absent
  status : JsOpt TaskStatus := .absent
  priority : JsOpt TaskPriority := .absent
  createdAt : JsOpt Nat := .absent
  updatedAt : JsOpt Nat := .absent
  dueDate : JsOpt Nat := .absent
deriving DecidableEq

/-- The JS object spread `{ ...t, ...p }` merging a task with a partial.
For the fields that are optional in the `Task` interface (`description`,
`updatedAt`, `dueDate`), a key present with `undefined` faithfully clears the
field to `none`. For the always-present fields (`id`, `title`, `status`,
`priority`, `createdAt`), a key present with `undefined` makes the source
store `undefined`, a value outside the `Task` interface that this well-typed
`Task` model cannot hold; the model keeps the old field value there, and
every theorem about `updateTask` whose property depends on such a field
excludes those keys by hypothesis (see the admissibility predicate `goodOp`
and the amended claim C1). -/
def mergeTask (t : Task) (p : TaskPatch) : Task :=
  { id := match p.id with
      | .val v => v
      | _ => t.id
    title := match p.title with
      | .val v => v
      | _ => t.title
    description := match p.description with
      | .val d => some d
      | .undef => none
      | .absent => t.description
    status := match p.status with
      | .val s => s
      | _ => t.status
    priority := match p.priority with
      | .val q => q
      | _ => t.priority
    createdAt := match p.createdAt with
      | .val n => n
      | _ => t.createdAt
    updatedAt := match p.updatedAt with
      | .val u => some u
      | .undef => none
      | .absent => t.updatedAt
    dueDate := match p.dueDate with
      | .val d => some d
      | .undef => none
      | .absent => t.dueDate }

/-- Replacement of one array slot, `arr[i] = f(arr[i])` on an immutable copy,
as in the source's `updatedColumns[sourceColumnIndex] = ...` writes. -/
def listModify (l : List α) (i : Nat) (f : α → α) : List α :=
  match l, i with
  | [], _ => []
  | a :: as, 0 => f a :: as
  | a :: as, n + 1 => a :: listModify as n f

/-- Embedding of `Array.prototype.findIndex`, returning `none` for `-1`. -/
def findIdxA (p : α → Bool) : List α → Option Nat
  | [] => none
  | a :: as => if p a then some 0 else (findIdxA p as).map (· + 1)

/-- The task-lookup loop shared by `updateTask` and `moveTask`:
`columns.forEach` keeps overwriting `(currentTask, sourceColumnIndex)`, so the
result is the first matching task of the **last** column that contains the id. -/
def findTask (taskId : String) : List Column → Option (Task × Nat)
  | [] => none
  | c :: cs =>
    match findTask taskId cs with
    | some (t, i) => some (t, i + 1)
    | none =>
      match c.tasks.find? (fun t => t.id == taskId) with
      | some t => some (t, 0)
      | none => none

/-- Operation `createTask` from `useKanbanStore.ts`: builds the new task and appends it
to every column whose status matches (there is at most one in practice). The
generated uuid and task code are passed in as `newId` and `code`. -/
def createTask (b : Board) (title : String) (description : Option String)
    (status : TaskStatus) (priority : TaskPriority) (dueDate : Option Nat)
    (newId code : String) (now : Nat) : Board :=
  let newTask : Task :=
    { id := newId
      title := code ++ " " ++ title
      description := description
      status := status
      priority := priority
      createdAt := now
      updatedAt := none
      dueDate := dueDate }
  { b with
    columns := b.columns.map fun column =>
      if column.status = status then
        { column with tasks := column.tasks ++ [newTask] }
      else
        column }

/-- The source's `tasks: column.tasks.filter((task) => task.id !== taskId)`
step: one column with the given id filtered out. -/
def removeFromColumn (taskId : String) (column : Column) : Column :=
  { column with tasks := column.tasks.filter (fun t => t.id != taskId) }

/-- The source's `{ ...task, ...updatedTask, updatedAt: new Date() }` merge. -/
def mergedWithNow (p : TaskPatch) (now : Nat) (t : Task) : Task :=
  { mergeTask t p with updatedAt := some now }

/-- Appending one task at the end of a column's list, as in the source's
`tasks: [...column.tasks, movedTask]`. -/
def appendToColumn (x : Task) (column : Column) : Column :=
  { column with tasks := column.tasks ++ [x] }

/-- The per-column body of the `else` branch of `updateTask`: replace the
first task with the given id, if any, by the merged task. -/
def updateColumnInPlace (taskId : String) (p : TaskPatch) (now : Nat)
    (column : Column) : Column :=
  match findIdxA (fun t => t.id == taskId) column.tasks with
  | some taskIndex =>
    { column with
      tasks := listModify column.tasks taskIndex (mergedWithNow p now) }
  | none => column

/-- The `else` branch of `updateTask` (status unchanged or absent): every
column replaces its first task with the given id, if any, by the merged task
with `updatedAt` set to now. -/
def updateTaskInPlace (b : Board) (taskId : String) (p : TaskPatch)
    (now : Nat) : Board :=
  { b with columns := b.columns.map (updateColumnInPlace taskId p now) }

/-- Steps 2 and 3 shared verbatim by `updateTask` (status-change branch) and
`moveTask` in the source: build `updatedColumns` by filtering the id out of
the source column at `sourceColumnIndex`, then `findIndex` the destination
column by status and append the prepared task `x` there, dropping `x` when no
column matches. The source binds `updatedColumns` to a local constant; here
the expression is repeated instead. -/
def removeThenAppend (b : Board) (sourceColumnIndex : Nat) (taskId : String)
    (x : Task) (destStatus : TaskStatus) : Board :=
  match findIdxA (fun col => col.status == destStatus)
      (listModify b.columns sourceColumnIndex (removeFromColumn taskId)) with
  | some destinationColumnIndex =>
    { b with
      columns := listModify
        (listModify b.columns sourceColumnIndex (removeFromColumn taskId))
        destinationColumnIndex (appendToColumn x) }
  | none =>
    { b with
      columns := listModify b.columns sourceColumnIndex
        (removeFromColumn taskId) }

/-- Operation `updateTask` from `useKanbanStore.ts`. The branch condition is
the source's `updatedTask.status && updatedTask.status !== currentTask.status`:
an absent key and a key present with the falsy value `undefined` both fail
the truthiness test and take the in-place branch. -/
def updateTask (b : Board) (taskId : String) (p : TaskPatch) (now : Nat) :
    Board :=
  match findTask taskId b.columns with
  | none => b
  | some (currentTask, sourceColumnIndex) =>
    match p.status with
    | .val newStatus =>
      if newStatus ≠ currentTask.status then
        removeThenAppend b sourceColumnIndex taskId
          (mergedWithNow p now currentTask) newStatus
      else
        updateTaskInPlace b taskId p now
    | .undef => updateTaskInPlace b taskId p now
    | .absent => updateTaskInPlace b taskId p now

/-- Operation `deleteTask` from `useKanbanStore.ts`: filter the id out of every column. -/
def deleteTask (b : Board) (taskId : String) : Board :=
  { b with columns := b.columns.map (removeFromColumn taskId) }

/-- Operation `moveTask` from `useKanbanStore.ts`. -/
def moveTask (b : Board) (taskId : String) (destinationStatus : TaskStatus)
    (now : Nat) : Board :=
  match findTask taskId b.columns with
  | none => b
  | some (taskToMove, sourceColumnIndex) =>
    removeThenAppend b sourceColumnIndex taskId
      { taskToMove with status := destinationStatus, updatedAt := some now }
      destinationStatus

/-- Operation `getFilteredBoard` from `useKanbanStore.ts`; the two optional filters are
passed as arguments (in the source they are read from the store state). -/
def getFilteredBoard (b : Board) (filterByStatus : Option TaskStatus)
    (filterByPriority : Option TaskPriority) : Board :=
  { b with
    columns := b.columns.map fun column =>
      { column with
        tasks := column.tasks.filter fun task =>
          (match filterByStatus with
            | none => true
            | some s => task.status == s) &&
          (match filterByPriority with
            | none => true
            | some p => task.priority == p) } }

/-- Constant `initialBoard` from `useKanbanStore.ts`; the four `uuidv4()` calls are
passed in as arguments. -/
def initialBoard (boardId todoId inProgressId doneId : String) : Board :=
  { id := boardId
    title := "Kanban Board"
    columns :=
      [ { id := todoId, title := "To Do", status := .todo, tasks := [] }
      , { id := inProgressId, title := "In Progress", status := .in_progress
        , tasks := [] }
      , { id := doneId, title := "Done", status := .done, tasks := [] } ] }

/-- All tasks of a list of columns, in column order. -/
def allTasksOf (cols : List Column) : List Task :=
  cols.flatMap (·.tasks)

/-- All tasks on a board. -/
def allTasks (b : Board) : List Task :=
  allTasksOf b.columns

/-- All task ids on a board, with multiplicity. -/
def taskIds (b : Board) : List String :=
  (allTasks b).map (·.id)

/-- The statuses of the board's columns, in order. -/
def colStatuses (b : Board) : List TaskStatus :=
  b.columns.map (·.status)

/-- Internal invariant of reachable boards: column statuses are pairwise
distinct, task ids are globally pairwise distinct, and every task sits in the
column whose status equals its own. -/
def BoardInv (b : Board) : Prop :=
  (colStatuses b).Nodup ∧ (taskIds b).Nodup ∧
    ∀ c ∈ b.columns, ∀ t ∈ c.tasks, t.status = c.status

instance (b : Board) : Decidable (BoardInv b) := by
  unfold BoardInv
  infer_instance

/-! ## Helper lemmas about the list combinators -/

theorem listModify_append (pre : List α) (c : α) (post : List α) (f : α → α) :
    listModify (pre ++ c :: post) pre.length f = pre ++ f c :: post := by
  induction pre with
  | nil => rfl
  | cons a as ih => simpa [listModify] using ih

theorem mem_listModify {l : List α} {i : Nat} {f : α → α} {a : α}
    (h : a ∈ listModify l i f) : a ∈ l ∨ ∃ x ∈ l, a = f x := by
  induction l generalizing i with
  | nil => simp [listModify] at h
  | cons x xs ih =>
    cases i with
    | zero =>
      rcases (List.mem_cons).mp h with h1 | h1
      · exact Or.inr ⟨x, List.mem_cons_self x xs, h1⟩
      · exact Or.inl (List.mem_cons_of_mem x h1)
    | succ n =>
      rcases (List.mem_cons).mp h with h1 | h1
      · exact Or.inl (h1 ▸ List.mem_cons_self x xs)
      · rcases ih h1 with h2 | ⟨y, hy, hay⟩
        · exact Or.inl (List.mem_cons_of_mem x h2)
        · exact Or.inr ⟨y, List.mem_cons_of_mem x hy, hay⟩

theorem map_listModify (g : α → β) (f : α → α) (hgf : ∀ a, g (f a) = g a) :
    ∀ (l : List α) (i : Nat), (listModify l i f).map g = l.map g
  | [], _ => rfl
  | a :: as, 0 => by simp [listModify, hgf]
  | a :: as, n + 1 => by simp [listModify, map_listModify g f hgf as n]

theorem map_eq_self_of {l : List α} {f : α → α} (h : ∀ a ∈ l, f a = a) :
    l.map f = l := by
  induction l with
  | nil => rfl
  | cons a as ih =>
    rw [List.map_cons, h a (List.mem_cons_self a as),
      ih fun x hx => h x (List.mem_cons_of_mem a hx)]

theorem findIdxA_eq_none {p : α → Bool} : ∀ {l : List α},
    findIdxA p l = none ↔ ∀ a ∈ l, p a = false := by
  intro l
  induction l with
  | nil => simp [findIdxA]
  | cons a as ih =>
    by_cases h : p a = true
    · simp [findIdxA, h]
    · simp only [Bool.not_eq_true] at h
      simp [findIdxA, h, Option.map_eq_none', ih]

theorem findIdxA_eq_some {p : α → Bool} : ∀ {l : List α} {i : Nat},
    findIdxA p l = some i →
    ∃ pre c post, l = pre ++ c :: post ∧ i = pre.length ∧ p c = true ∧
      ∀ a ∈ pre, p a = false := by
  intro l
  induction l with
  | nil => intro i h; simp [findIdxA] at h
  | cons a as ih =>
    intro i h
    by_cases hp : p a = true
    · simp only [findIdxA, if_pos hp, Option.some.injEq] at h
      exact ⟨[], a, as, rfl, h.symm, hp, by simp⟩
    · simp only [Bool.not_eq_true] at hp
      simp only [findIdxA, hp, Bool.false_eq_true, if_false, Option.map_eq_some'] at h
      obtain ⟨j, hj, rfl⟩ := h
      obtain ⟨pre, c, post, rfl, rfl, hc, hpre⟩ := ih hj
      refine ⟨a :: pre, c, post, rfl, by simp, hc, ?_⟩
      intro x hx
      rcases (List.mem_cons).mp hx with rfl | hx
      · exact hp
      · exact hpre x hx

theorem findIdxA_append {p : α → Bool} (pre : List α) (c : α) (post : List α)
    (hpre : ∀ a ∈ pre, p a = false) (hc : p c = true) :
    findIdxA p (pre ++ c :: post) = some pre.length := by
  induction pre with
  | nil => simp [findIdxA, hc]
  | cons a as ih =>
    have ha : p a = false := hpre a (List.mem_cons_self a as)
    have ih2 := ih (fun x hx => hpre x (List.mem_cons_of_mem a hx))
    simp [findIdxA, ha, ih2]

theorem find?_decomp {p : α → Bool} : ∀ {l : List α} {a : α},
    l.find? p = some a →
    ∃ l1 l2, l = l1 ++ a :: l2 ∧ ∀ x ∈ l1, p x = false := by
  intro l
  induction l with
  | nil => intro a h; simp at h
  | cons b bs ih =>
    intro a h
    by_cases hp : p b = true
    · rw [List.find?_cons_of_pos _ hp, Option.some.injEq] at h
      exact ⟨[], bs, by simp [h], by simp⟩
    · simp only [Bool.not_eq_true] at hp
      rw [List.find?_cons_of_neg _ (by simp [hp])] at h
      obtain ⟨l1, l2, rfl, hl1⟩ := ih h
      refine ⟨b :: l1, l2, rfl, ?_⟩
      intro x hx
      rcases (List.mem_cons).mp hx with rfl | hx
      · exact hp
      · exact hl1 x hx

theorem map_nodup_split {f : α → β} {l1 l2 : List α} {a : α}
    (hnd : ((l1 ++ a :: l2).map f).Nodup) :
    (∀ x ∈ l1, f x ≠ f a) ∧ ∀ x ∈ l2, f x ≠ f a := by
  rw [List.map_append, List.map_cons, List.nodup_middle, List.nodup_cons] at hnd
  have hmem := hnd.1
  rw [← List.map_append] at hmem
  constructor
  · intro x hx hfx
    exact hmem (hfx ▸ List.mem_map_of_mem f (List.mem_append_left l2 hx))
  · intro x hx hfx
    exact hmem (hfx ▸ List.mem_map_of_mem f (List.mem_append_right l1 hx))

theorem perm_insert_middle (A m B : List α) (x : α) :
    List.Perm (A ++ (m ++ [x]) ++ B) (x :: (A ++ (m ++ B))) := by
  have h1 : A ++ (m ++ [x]) ++ B = (A ++ m) ++ x :: B := by simp
  have h2 : x :: (A ++ (m ++ B)) = x :: ((A ++ m) ++ B) := by simp
  rw [h1, h2]
  exact List.perm_middle

/-! ## Lemmas about `findTask` and `allTasksOf` -/

theorem findTask_eq_none {taskId : String} : ∀ {cols : List Column},
    findTask taskId cols = none ↔ ∀ c ∈ cols, ∀ t ∈ c.tasks, t.id ≠ taskId := by
  intro cols
  induction cols with
  | nil => simp [findTask]
  | cons c cs ih =>
    cases hcs : findTask taskId cs with
    | some pr =>
      simp only [findTask, hcs]
      constructor
      · intro h; cases h
      · intro h
        have : findTask taskId cs = none :=
          ih.mpr fun c2 hc2 => h c2 (List.mem_cons_of_mem c hc2)
        rw [this] at hcs; cases hcs
    | none =>
      cases hf : c.tasks.find? (fun t => t.id == taskId) with
      | some t =>
        simp only [findTask, hcs, hf]
        constructor
        · intro h; cases h
        · intro h
          have ht := h c (List.mem_cons_self c cs) t (List.mem_of_find?_eq_some hf)
          have := List.find?_some hf
          exact absurd (by simpa using this) ht
      | none =>
        simp only [findTask, hcs, hf, true_iff]
        intro c2 hc2 t ht
        rcases (List.mem_cons).mp hc2 with rfl | hc2
        · have := List.find?_eq_none.mp hf t ht
          simpa using this
        · exact ih.mp hcs c2 hc2 t ht

theorem findTask_spec {taskId : String} : ∀ {cols : List Column} {t : Task}
    {i : Nat}, findTask taskId cols = some (t, i) →
    ∃ pre src post tpre tpost,
      cols = pre ++ src :: post ∧ i = pre.length ∧
      src.tasks = tpre ++ t :: tpost ∧ t.id = taskId ∧
      (∀ u ∈ tpre, u.id ≠ taskId) ∧
      ∀ c ∈ post, ∀ u ∈ c.tasks, u.id ≠ taskId := by
  intro cols
  induction cols with
  | nil => intro t i h; simp [findTask] at h
  | cons c cs ih =>
    intro t i h
    cases hcs : findTask taskId cs with
    | some pr =>
      obtain ⟨t2, j⟩ := pr
      simp only [findTask, hcs, Option.some.injEq, Prod.mk.injEq] at h
      obtain ⟨rfl, rfl⟩ := h
      obtain ⟨pre, src, post, tpre, tpost, rfl, rfl, hsrc, hid, htpre, hpost⟩ :=
        ih hcs
      exact ⟨c :: pre, src, post, tpre, tpost, rfl, by simp, hsrc, hid, htpre,
        hpost⟩
    | none =>
      cases hf : c.tasks.find? (fun u => u.id == taskId) with
      | some t2 =>
        simp only [findTask, hcs, hf, Option.some.injEq, Prod.mk.injEq] at h
        obtain ⟨rfl, rfl⟩ := h
        obtain ⟨tpre, tpost, htasks, htpre⟩ := find?_decomp hf
        refine ⟨[], c, cs, tpre, tpost, rfl, rfl, htasks, by
          simpa using List.find?_some hf, ?_, ?_⟩
        · intro u hu
          have := htpre u hu
          simpa using this
        · exact findTask_eq_none.mp hcs
      | none =>
        simp [findTask, hcs, hf] at h

theorem findTask_of_mem {taskId : String} {cols : List Column}
    (h : ∃ c ∈ cols, ∃ t ∈ c.tasks, t.id = taskId) :
    ∃ t i, findTask taskId cols = some (t, i) := by
  cases hf : findTask taskId cols with
  | none =>
    obtain ⟨c, hc, t, ht, hid⟩ := h
    exact absurd hid (findTask_eq_none.mp hf c hc t ht)
  | some pr => exact ⟨pr.1, pr.2, rfl⟩

theorem mem_taskIds_iff {taskId : String} {b : Board} :
    taskId ∈ taskIds b ↔ ∃ c ∈ b.columns, ∃ t ∈ c.tasks, t.id = taskId := by
  simp only [taskIds, allTasks, allTasksOf, List.mem_map, List.mem_flatMap]
  constructor
  · rintro ⟨t, ⟨c, hc, ht⟩, hid⟩
    exact ⟨c, hc, t, ht, hid⟩
  · rintro ⟨c, hc, t, ht, hid⟩
    exact ⟨t, ⟨c, hc, ht⟩, hid⟩

theorem allTasksOf_nil : allTasksOf [] = [] := rfl

theorem allTasksOf_cons (c : Column) (cs : List Column) :
    allTasksOf (c :: cs) = c.tasks ++ allTasksOf cs := rfl

theorem allTasksOf_append (l1 l2 : List Column) :
    allTasksOf (l1 ++ l2) = allTasksOf l1 ++ allTasksOf l2 := by
  simp [allTasksOf]

theorem mem_allTasksOf {t : Task} {cols : List Column} :
    t ∈ allTasksOf cols ↔ ∃ c ∈ cols, t ∈ c.tasks := by
  simp [allTasksOf]

/-- Decomposition of the flat task list induced by a column decomposition. -/
theorem allTasksOf_decomp {pre post : List Column} {src : Column}
    {tpre tpost : List Task} {t : Task} (hsrc : src.tasks = tpre ++ t :: tpost) :
    allTasksOf (pre ++ src :: post) =
      (allTasksOf pre ++ tpre) ++ t :: (tpost ++ allTasksOf post) := by
  rw [allTasksOf_append, allTasksOf_cons, hsrc]
  simp

/-- Under global id-distinctness, the found occurrence of an id is the only
one anywhere on the board. -/
theorem ids_facts {pre post : List Column} {src : Column}
    {tpre tpost : List Task} {t : Task}
    (hnd : ((allTasksOf (pre ++ src :: post)).map (·.id)).Nodup)
    (hsrc : src.tasks = tpre ++ t :: tpost) :
    (∀ c ∈ pre, ∀ u ∈ c.tasks, u.id ≠ t.id) ∧ (∀ u ∈ tpre, u.id ≠ t.id) ∧
      (∀ u ∈ tpost, u.id ≠ t.id) ∧
      ∀ c ∈ post, ∀ u ∈ c.tasks, u.id ≠ t.id := by
  rw [allTasksOf_decomp hsrc] at hnd
  obtain ⟨h1, h2⟩ := map_nodup_split hnd
  refine ⟨?_, ?_, ?_, ?_⟩
  · intro c hc u hu
    exact h1 u (List.mem_append_left tpre (mem_allTasksOf.mpr ⟨c, hc, hu⟩))
  · intro u hu
    exact h1 u (List.mem_append_right (allTasksOf pre) hu)
  · intro u hu
    exact h2 u (List.mem_append_left (allTasksOf post) hu)
  · intro c hc u hu
    exact h2 u (List.mem_append_right tpost (mem_allTasksOf.mpr ⟨c, hc, hu⟩))

/-! ## Filter helpers -/

theorem filter_out_of_forall {l : List Task} {tid : String}
    (h : ∀ u ∈ l, u.id ≠ tid) : l.filter (fun u => u.id != tid) = l :=
  List.filter_eq_self.mpr fun u hu => by simpa using h u hu

theorem filter_out_middle {tpre tpost : List Task} {t : Task} {tid : String}
    (h1 : ∀ u ∈ tpre, u.id ≠ tid) (h2 : ∀ u ∈ tpost, u.id ≠ tid)
    (ht : t.id = tid) :
    (tpre ++ t :: tpost).filter (fun u => u.id != tid) = tpre ++ tpost := by
  rw [List.filter_append, filter_out_of_forall h1, List.filter_cons]
  simp [ht, filter_out_of_forall h2]

/-! ## Characterizations of `deleteTask` -/

theorem allTasksOf_map_filter (p : Task → Bool) : ∀ cols : List Column,
    allTasksOf (cols.map fun c => { c with tasks := c.tasks.filter p }) =
      (allTasksOf cols).filter p
  | [] => rfl
  | c :: cs => by
    simp only [List.map_cons, allTasksOf_cons, List.filter_append,
      allTasksOf_map_filter p cs]

theorem removeFromColumn_of_forall {c : Column} {tid : String}
    (h : ∀ u ∈ c.tasks, u.id ≠ tid) : removeFromColumn tid c = c := by
  show { c with tasks := c.tasks.filter (fun u => u.id != tid) } = c
  rw [filter_out_of_forall h]

theorem colStatuses_deleteTask (b : Board) (tid : String) :
    colStatuses (deleteTask b tid) = colStatuses b := by
  simp only [colStatuses, deleteTask, List.map_map]
  exact List.map_congr_left fun c hc => rfl

theorem allTasks_deleteTask (b : Board) (tid : String) :
    allTasks (deleteTask b tid) = (allTasks b).filter (fun u => u.id != tid) :=
  allTasksOf_map_filter _ b.columns

theorem BoardInv.deleteTask {b : Board} (hInv : BoardInv b) (tid : String) :
    BoardInv (Kanban.deleteTask b tid) := by
  obtain ⟨hst, hids, hmatch⟩ := hInv
  refine ⟨?_, ?_, ?_⟩
  · rw [colStatuses_deleteTask]; exact hst
  · rw [taskIds, allTasks_deleteTask]
    exact (List.Sublist.map _ (List.filter_sublist _)).nodup hids
  · intro c hc t ht
    simp only [Kanban.deleteTask, List.mem_map] at hc
    obtain ⟨c0, hc0, rfl⟩ := hc
    exact hmatch c0 hc0 t (List.mem_of_mem_filter ht)

theorem not_mem_taskIds_deleteTask (b : Board) (tid : String) :
    tid ∉ taskIds (Kanban.deleteTask b tid) := by
  rw [taskIds, allTasks_deleteTask]
  intro h
  obtain ⟨u, hu, hid⟩ := List.mem_map.mp h
  have := List.of_mem_filter hu
  rw [hid] at this
  simp at this

theorem deleteTask_of_not_mem {b : Board} {tid : String}
    (h : tid ∉ taskIds b) : Kanban.deleteTask b tid = b := by
  have h2 : ∀ c ∈ b.columns, ∀ u ∈ c.tasks, u.id ≠ tid := by
    intro c hc u hu hid
    exact h (mem_taskIds_iff.mpr ⟨c, hc, u, hu, hid⟩)
  show { b with columns := _ } = b
  rw [map_eq_self_of fun c hc => removeFromColumn_of_forall (h2 c hc)]

/-- Under the invariant, removing the found task from its source column only
(as `updateTask` and `moveTask` do) equals removing it from every column
(as `deleteTask` does): the other columns do not contain the id. -/
theorem removal_eq_delete {b : Board} {tid : String} {t : Task} {i : Nat}
    (hids : (taskIds b).Nodup) (hfind : findTask tid b.columns = some (t, i)) :
    { b with columns := listModify b.columns i (removeFromColumn tid) } =
      Kanban.deleteTask b tid := by
  obtain ⟨pre, src, post, tpre, tpost, hcols, rfl, hsrc, hid, htpre, hpost⟩ :=
    findTask_spec hfind
  have hnd : ((allTasksOf (pre ++ src :: post)).map (·.id)).Nodup := by
    rw [← hcols]; exact hids
  obtain ⟨hpre2, _, htpost2, _⟩ := ids_facts hnd hsrc
  have hsrcF : removeFromColumn tid src = { src with tasks := tpre ++ tpost } := by
    show { src with tasks := src.tasks.filter (fun u => u.id != tid) } = _
    rw [hsrc, filter_out_middle htpre (fun u hu => hid ▸ htpost2 u hu) hid]
  have hLHS : listModify b.columns pre.length (removeFromColumn tid) =
      pre ++ { src with tasks := tpre ++ tpost } :: post := by
    rw [hcols, listModify_append, hsrcF]
  have hRHS : (Kanban.deleteTask b tid).columns =
      pre ++ { src with tasks := tpre ++ tpost } :: post := by
    show b.columns.map _ = _
    rw [hcols, List.map_append, List.map_cons, hsrcF,
      map_eq_self_of (l := pre) fun c hc =>
        removeFromColumn_of_forall fun u hu => hid ▸ hpre2 c hc u hu,
      map_eq_self_of (l := post) fun c hc =>
        removeFromColumn_of_forall (hpost c hc)]
  have : Kanban.deleteTask b tid = { b with columns := (Kanban.deleteTask b tid).columns } := rfl
  rw [this, hRHS, hLHS]

/-! ## Invariant preservation -/

/-- Appending a fresh, status-matching task to one column preserves the
invariant. -/
theorem inv_of_append_decomp {b : Board} {pre post : List Column} {c : Column}
    {x : Task} (hb : b.columns = pre ++ c :: post) (hInv : BoardInv b)
    (hx : x.status = c.status) (hfresh : x.id ∉ taskIds b) :
    BoardInv
      { b with columns := pre ++ { c with tasks := c.tasks ++ [x] } :: post } := by
  obtain ⟨hst, hids, hmatch⟩ := hInv
  have hperm : List.Perm
      (allTasksOf (pre ++ { c with tasks := c.tasks ++ [x] } :: post))
      (x :: allTasksOf (pre ++ c :: post)) := by
    rw [allTasksOf_append, allTasksOf_cons, allTasksOf_append, allTasksOf_cons]
    show List.Perm (allTasksOf pre ++ ((c.tasks ++ [x]) ++ allTasksOf post)) _
    have := perm_insert_middle (allTasksOf pre) c.tasks (allTasksOf post) x
    simpa using this
  refine ⟨?_, ?_, ?_⟩
  · show (List.map (·.status) (pre ++ _ :: post)).Nodup
    have : List.map (·.status) (pre ++ { c with tasks := c.tasks ++ [x] } :: post) =
        List.map (·.status) (pre ++ c :: post) := by simp
    rw [this, ← hb]
    exact hst
  · show ((allTasksOf (pre ++ _ :: post)).map (·.id)).Nodup
    have h2 := hperm.map (·.id)
    refine h2.symm.nodup ?_
    rw [List.map_cons, List.nodup_cons]
    refine ⟨?_, by rw [← hb]; exact hids⟩
    intro hmem
    exact hfresh (by rw [taskIds, allTasks, hb]; exact hmem)
  · intro c2 hc2 t ht
    rcases List.mem_append.mp hc2 with h2 | h2
    · exact hmatch c2 (hb ▸ List.mem_append_left _ h2) t ht
    · rcases (List.mem_cons).mp h2 with rfl | h2
      · rcases List.mem_append.mp ht with h3 | h3
        · exact hmatch c (hb ▸ List.mem_append_right _ (List.mem_cons_self c post)) t h3
        · rcases (List.mem_cons).mp h3 with rfl | h3
          · exact hx
          · cases h3
      · exact hmatch c2 (hb ▸ List.mem_append_right _ (List.mem_cons_of_mem c h2)) t ht

theorem createTask_no_col {b : Board} {status : TaskStatus}
    (hno : ∀ c ∈ b.columns, c.status ≠ status) (title : String)
    (descr : Option String) (prio : TaskPriority) (due : Option Nat)
    (nid code : String) (now : Nat) :
    createTask b title descr status prio due nid code now = b := by
  show { b with columns := _ } = b
  rw [map_eq_self_of fun c hc => if_neg (hno c hc)]

theorem createTask_columns_of_match {b : Board} {status : TaskStatus}
    {pre post : List Column} {c : Column} (hb : b.columns = pre ++ c :: post)
    (hst : (colStatuses b).Nodup) (hcs : c.status = status) (title : String)
    (descr : Option String) (prio : TaskPriority) (due : Option Nat)
    (nid code : String) (now : Nat) :
    createTask b title descr status prio due nid code now =
      { b with columns := pre ++
          { c with tasks := c.tasks ++
              [{ id := nid, title := code ++ " " ++ title, description := descr
               , status := status, priority := prio, createdAt := now
               , updatedAt := none, dueDate := due }] } :: post } := by
  have hst2 : (List.map (fun c2 : Column => c2.status) (pre ++ c :: post)).Nodup := by
    rw [← hb]; exact hst
  have hsplit := map_nodup_split hst2
  show { b with columns := _ } = _
  rw [hb, List.map_append, List.map_cons, if_pos hcs,
    map_eq_self_of (l := pre) fun c2 hc2 => if_neg (hcs ▸ hsplit.1 c2 hc2),
    map_eq_self_of (l := post) fun c2 hc2 => if_neg (hcs ▸ hsplit.2 c2 hc2)]

theorem BoardInv.createTask {b : Board} (hInv : BoardInv b)
    {newId : String} (hfresh : newId ∉ taskIds b) (title : String)
    (descr : Option String) (status : TaskStatus) (prio : TaskPriority)
    (due : Option Nat) (code : String) (now : Nat) :
    BoardInv (Kanban.createTask b title descr status prio due newId code now) := by
  by_cases hex : ∃ c ∈ b.columns, c.status = status
  · obtain ⟨c, hc, hcs⟩ := hex
    obtain ⟨pre, post, hb⟩ := List.append_of_mem hc
    rw [createTask_columns_of_match hb hInv.1 hcs title descr prio due newId
      code now]
    exact inv_of_append_decomp hb hInv (by simpa using hcs.symm) hfresh
  · push_neg at hex
    rw [createTask_no_col hex title descr prio due newId code now]
    exact hInv

/-! ## Facts about the merge and the in-place update -/

theorem mergedWithNow_id {p : TaskPatch} (hpid : p.id = JsOpt.absent)
    (now : Nat) (t : Task) : (mergedWithNow p now t).id = t.id := by
  simp [mergedWithNow, mergeTask, hpid]

theorem mergedWithNow_createdAt {p : TaskPatch}
    (hca : p.createdAt = JsOpt.absent) (now : Nat) (t : Task) :
    (mergedWithNow p now t).createdAt = t.createdAt := by
  simp [mergedWithNow, mergeTask, hca]

theorem mergedWithNow_status_val {p : TaskPatch} {s : TaskStatus}
    (hp : p.status = JsOpt.val s) (now : Nat) (t : Task) :
    (mergedWithNow p now t).status = s := by
  simp [mergedWithNow, mergeTask, hp]

theorem mergedWithNow_status_keep {p : TaskPatch}
    (hp : ∀ s, p.status ≠ JsOpt.val s) (now : Nat) (t : Task) :
    (mergedWithNow p now t).status = t.status := by
  cases h2 : p.status with
  | absent => simp [mergedWithNow, mergeTask, h2]
  | undef => simp [mergedWithNow, mergeTask, h2]
  | val s => exact absurd h2 (hp s)

theorem updateColumnInPlace_status (tid : String) (p : TaskPatch) (now : Nat)
    (c : Column) : (updateColumnInPlace tid p now c).status = c.status := by
  unfold updateColumnInPlace
  cases hfi : findIdxA (fun t => t.id == tid) c.tasks <;> simp

theorem updateColumnInPlace_ids {p : TaskPatch} (hpid : p.id = JsOpt.absent)
    (tid : String) (now : Nat) (c : Column) :
    ((updateColumnInPlace tid p now c).tasks).map (fun t => t.id) =
      c.tasks.map (fun t => t.id) := by
  unfold updateColumnInPlace
  cases hfi : findIdxA (fun t => t.id == tid) c.tasks with
  | none => rfl
  | some k =>
    simp only
    exact map_listModify _ _ (fun t => mergedWithNow_id hpid now t) c.tasks k

theorem allTasksOf_map_ids {g : Column → Column}
    (h : ∀ c, ((g c).tasks).map (fun t => t.id) = c.tasks.map (fun t => t.id)) :
    ∀ cols : List Column,
      (allTasksOf (cols.map g)).map (fun t => t.id) =
        (allTasksOf cols).map (fun t => t.id)
  | [] => rfl
  | c :: cs => by
    simp only [List.map_cons, allTasksOf_cons, List.map_append, h c,
      allTasksOf_map_ids h cs]

theorem taskIds_updateTaskInPlace {p : TaskPatch}
    (hpid : p.id = JsOpt.absent) (b : Board) (tid : String) (now : Nat) :
    taskIds (updateTaskInPlace b tid p now) = taskIds b :=
  allTasksOf_map_ids (updateColumnInPlace_ids hpid tid now) b.columns

theorem colStatuses_updateTaskInPlace (b : Board) (tid : String)
    (p : TaskPatch) (now : Nat) :
    colStatuses (updateTaskInPlace b tid p now) = colStatuses b := by
  simp only [colStatuses, updateTaskInPlace, List.map_map]
  exact List.map_congr_left fun c hc => updateColumnInPlace_status tid p now c

theorem BoardInv.updateTaskInPlace {b : Board} {tid : String} {p : TaskPatch}
    {now : Nat} (hInv : BoardInv b) (hpid : p.id = JsOpt.absent)
    (hps : ∀ u ∈ allTasks b, u.id = tid → ∀ s, p.status = JsOpt.val s →
      u.status = s) :
    BoardInv (Kanban.updateTaskInPlace b tid p now) := by
  obtain ⟨hst, hids, hmatch⟩ := hInv
  refine ⟨?_, ?_, ?_⟩
  · rw [colStatuses_updateTaskInPlace]; exact hst
  · rw [taskIds_updateTaskInPlace hpid]; exact hids
  · intro c hc t ht
    simp only [Kanban.updateTaskInPlace, List.mem_map] at hc
    obtain ⟨c0, hc0, rfl⟩ := hc
    rw [updateColumnInPlace_status]
    revert ht
    unfold updateColumnInPlace
    cases hfi : findIdxA (fun u => u.id == tid) c0.tasks with
    | none => exact fun ht => hmatch c0 hc0 t ht
    | some k =>
      obtain ⟨tpre, tk, tpost, htasks, rfl, hpk, -⟩ := findIdxA_eq_some hfi
      simp only [htasks, listModify_append]
      intro ht
      rcases List.mem_append.mp ht with h2 | h2
      · exact hmatch c0 hc0 t (htasks ▸ List.mem_append_left _ h2)
      · rcases (List.mem_cons).mp h2 with rfl | h2
        · have hkid : tk.id = tid := by simpa using hpk
          have hkmem : tk ∈ c0.tasks := htasks ▸
            List.mem_append_right _ (List.mem_cons_self tk tpost)
          cases hp2 : p.status with
          | absent =>
            rw [mergedWithNow_status_keep (fun s hs => by
              rw [hp2] at hs; cases hs) now tk]
            exact hmatch c0 hc0 tk hkmem
          | undef =>
            rw [mergedWithNow_status_keep (fun s hs => by
              rw [hp2] at hs; cases hs) now tk]
            exact hmatch c0 hc0 tk hkmem
          | val s =>
            have := hps tk (mem_allTasksOf.mpr ⟨c0, hc0, hkmem⟩) hkid s hp2
            rw [mergedWithNow_status_val hp2, ← this]
            exact hmatch c0 hc0 tk hkmem
        · exact hmatch c0 hc0 t
            (htasks ▸ List.mem_append_right _ (List.mem_cons_of_mem tk h2))

/-! ## Facts about `findTask` results and the shared move logic -/

theorem findTask_id {tid : String} {b : Board} {t : Task} {i : Nat}
    (hfind : findTask tid b.columns = some (t, i)) : t.id = tid := by
  obtain ⟨-, -, -, -, -, -, -, -, hid, -, -⟩ := findTask_spec hfind
  exact hid

theorem findTask_mem_allTasks {tid : String} {b : Board} {t : Task} {i : Nat}
    (hfind : findTask tid b.columns = some (t, i)) : t ∈ allTasks b := by
  obtain ⟨pre, src, post, tpre, tpost, hcols, -, hsrc, -, -, -⟩ :=
    findTask_spec hfind
  rw [allTasks, hcols]
  exact mem_allTasksOf.mpr ⟨src,
    List.mem_append_right _ (List.mem_cons_self src post),
    hsrc ▸ List.mem_append_right _ (List.mem_cons_self t tpost)⟩

theorem eq_of_same_id {b : Board} (hids : (taskIds b).Nodup) {u v : Task}
    (hu : u ∈ allTasks b) (hv : v ∈ allTasks b) (h : u.id = v.id) : u = v :=
  List.inj_on_of_nodup_map hids hu hv h

theorem inv_removeThenAppend {b : Board} {tid : String} {t : Task} {i : Nat}
    {x : Task} {s : TaskStatus} (hInv : BoardInv b)
    (hfind : findTask tid b.columns = some (t, i)) (hxid : x.id = tid)
    (hxs : x.status = s) :
    BoardInv (removeThenAppend b i tid x s) := by
  unfold removeThenAppend
  have hcols2 : listModify b.columns i (removeFromColumn tid) =
      (Kanban.deleteTask b tid).columns :=
    congrArg Board.columns (removal_eq_delete hInv.2.1 hfind)
  rw [hcols2]
  split
  · next j hdest =>
    obtain ⟨pre, cdest, post, hdcols, rfl, hpred, -⟩ := findIdxA_eq_some hdest
    rw [hdcols, listModify_append]
    have hcs : cdest.status = s := by simpa using hpred
    exact inv_of_append_decomp (b := Kanban.deleteTask b tid) hdcols
      (hInv.deleteTask tid) (by rw [hxs, hcs])
      (by rw [hxid]; exact not_mem_taskIds_deleteTask b tid)
  · exact hInv.deleteTask tid

/-! ## Invariant preservation for the dispatching operations -/

theorem BoardInv.updateTask {b : Board} {tid : String} {p : TaskPatch}
    {now : Nat} (hInv : BoardInv b) (hpid : p.id = JsOpt.absent) :
    BoardInv (Kanban.updateTask b tid p now) := by
  unfold Kanban.updateTask
  split
  · exact hInv
  · next t i hfind =>
    split
    · next s hp2 =>
      split
      · next hss =>
        exact inv_removeThenAppend hInv hfind
          ((mergedWithNow_id hpid now t).trans (findTask_id hfind))
          (mergedWithNow_status_val hp2 now t)
      · next hss =>
        push_neg at hss
        refine hInv.updateTaskInPlace hpid fun u hu hid s2 hs2 => ?_
        rw [hp2] at hs2
        injection hs2 with hs2
        have hut : u = t := eq_of_same_id hInv.2.1 hu
          (findTask_mem_allTasks hfind) (hid.trans (findTask_id hfind).symm)
        rw [hut, ← hs2, hss]
    · next hp2 =>
      exact hInv.updateTaskInPlace hpid fun u hu hid s hs => by
        rw [hp2] at hs; cases hs
    · next hp2 =>
      exact hInv.updateTaskInPlace hpid fun u hu hid s hs => by
        rw [hp2] at hs; cases hs

theorem BoardInv.moveTask {b : Board} {tid : String} {s : TaskStatus}
    {now : Nat} (hInv : BoardInv b) :
    BoardInv (Kanban.moveTask b tid s now) := by
  unfold Kanban.moveTask
  split
  · exact hInv
  · next t i hfind =>
    have hxid : ({ t with status := s, updatedAt := some now } : Task).id = tid :=
      findTask_id (t := t) hfind
    exact inv_removeThenAppend hInv hfind hxid rfl

/-! ## Operation sequences -/

/-- One store operation, with the nondeterministic inputs of the source (the
generated uuid, the generated task code, the current time) made explicit. -/
inductive Op where
  | create (title : String) (description : Option String) (status : TaskStatus)
      (priority : TaskPriority) (dueDate : Option Nat) (newId code : String)
      (now : Nat)
  | update (taskId : String) (p : TaskPatch) (now : Nat)
  | delete (taskId : String)
  | move (taskId : String) (destinationStatus : TaskStatus) (now : Nat)

def applyOp (b : Board) : Op → Board
  | .create title descr status prio due newId code now =>
    createTask b title descr status prio due newId code now
  | .update taskId p now => updateTask b taskId p now
  | .delete taskId => deleteTask b taskId
  | .move taskId s now => moveTask b taskId s now

/-- Admissibility of an operation on a board: a `create` carries a fresh
generated id (as `uuidv4()` ensures in the source), and an `update` partial
neither contains the `id` key nor contains the `status` key with value
`undefined`. A partial with `{status: undefined}` makes the source's spread
store `undefined` in the task's `status` — a state outside the `Task`
interface that the well-typed board model cannot hold, and one in which the
task no longer matches its column's status. -/
def goodOp (b : Board) : Op → Prop
  | .create _ _ _ _ _ newId _ _ => newId ∉ taskIds b
  | .update _ p _ => p.id = JsOpt.absent ∧ p.status ≠ JsOpt.undef
  | .delete _ => True
  | .move _ _ _ => True

instance (b : Board) (op : Op) : Decidable (goodOp b op) := by
  cases op <;> unfold goodOp <;> infer_instance

def goodSeq : Board → List Op → Prop
  | _, [] => True
  | b, op :: rest => goodOp b op ∧ goodSeq (applyOp b op) rest

instance instDecidableGoodSeq :
    (b : Board) → (ops : List Op) → Decidable (goodSeq b ops)
  | _, [] => .isTrue trivial
  | b, op :: rest =>
    @instDecidableAnd _ _ _ (instDecidableGoodSeq (applyOp b op) rest)

def runOps (b : Board) (ops : List Op) : Board :=
  ops.foldl applyOp b

theorem BoardInv.applyOp {b : Board} {op : Op} (hInv : BoardInv b)
    (hgood : goodOp b op) : BoardInv (Kanban.applyOp b op) := by
  cases op with
  | create title descr status prio due newId code now =>
    exact hInv.createTask hgood title descr status prio due code now
  | update taskId p now => exact hInv.updateTask hgood.1
  | delete taskId => exact hInv.deleteTask taskId
  | move taskId s now => exact hInv.moveTask

theorem BoardInv.runOps : ∀ (ops : List Op) (b : Board), BoardInv b →
    goodSeq b ops → BoardInv (Kanban.runOps b ops)
  | [], _, hInv, _ => hInv
  | op :: rest, b, hInv, hgood =>
    BoardInv.runOps rest (Kanban.applyOp b op) (hInv.applyOp hgood.1) hgood.2

theorem boardInv_initialBoard (i0 i1 i2 i3 : String) :
    BoardInv (initialBoard i0 i1 i2 i3) := by
  refine ⟨?_, ?_, ?_⟩
  · show ([TaskStatus.todo, TaskStatus.in_progress, TaskStatus.done]).Nodup
    decide
  · show ([] : List String).Nodup
    exact List.nodup_nil
  · intro c hc t ht
    simp only [initialBoard, List.mem_cons, List.not_mem_nil, or_false] at hc
    rcases hc with rfl | rfl | rfl <;> simp at ht

theorem countP_columns_eq_one : ∀ {cols : List Column} {tid : String},
    ((allTasksOf cols).map (fun t => t.id)).Nodup →
    tid ∈ (allTasksOf cols).map (fun t => t.id) →
    cols.countP (fun c => c.tasks.any (fun u => u.id == tid)) = 1 := by
  intro cols
  induction cols with
  | nil => intro tid hnd hmem; simp [allTasksOf] at hmem
  | cons c cs ih =>
    intro tid hnd hmem
    rw [allTasksOf_cons, List.map_append] at hnd hmem
    rw [List.nodup_append] at hnd
    obtain ⟨hnd1, hnd2, hdisj⟩ := hnd
    rcases List.mem_append.mp hmem with h1 | h1
    · have hany : c.tasks.any (fun u => u.id == tid) = true := by
        obtain ⟨u, hu, hid⟩ := List.mem_map.mp h1
        exact List.any_eq_true.mpr ⟨u, hu, by simp [hid]⟩
      rw [List.countP_cons_of_pos (fun c2 => c2.tasks.any (fun u => u.id == tid)) cs hany]
      have hz : cs.countP (fun c2 => c2.tasks.any (fun u => u.id == tid)) = 0 := by
        rw [List.countP_eq_zero]
        intro c2 hc2 hany2
        obtain ⟨u, hu, hid⟩ := List.any_eq_true.mp hany2
        have h3 : tid ∈ (allTasksOf cs).map (fun t => t.id) :=
          List.mem_map.mpr ⟨u, mem_allTasksOf.mpr ⟨c2, hc2, hu⟩,
            by simpa using hid⟩
        exact hdisj h1 h3
      rw [hz]
    · have hnotc : ¬(c.tasks.any (fun u => u.id == tid) = true) := by
        intro hany
        obtain ⟨u, hu, hid⟩ := List.any_eq_true.mp hany
        have h2 : tid ∈ c.tasks.map (fun t => t.id) :=
          List.mem_map.mpr ⟨u, hu, by simpa using hid⟩
        exact hdisj h2 h1
      rw [List.countP_cons_of_neg (fun c2 => c2.tasks.any (fun u => u.id == tid)) cs hnotc]
      exact ih hnd2 h1

/-! ## Claim C1 -/

/-- Example boards and operation sequences used as concrete instances. -/
def exInit : Board := initialBoard "b0" "col-todo" "col-doing" "col-done"

def exGoodOps : List Op :=
  [.create "Write spec" none .todo .medium none "t1" "TASK-101" 0]

def exBadOps : List Op :=
  [ .create "a" none .todo .medium none "t1" "TASK-101" 0
  , .create "b" none .done .medium none "t2" "TASK-102" 1
  , .update "t1" { id := JsOpt.val "t2" } 2 ]

def exTwoTodoOps : List Op :=
  [ .create "a" none .todo .medium none "t1" "TASK-101" 0
  , .create "b" none .todo .low none "t3" "TASK-103" 3 ]

/-- The task record created by the first operation of `exTwoTodoOps`. -/
def exTaskOne : Task :=
  { id := "t1", title := "TASK-101 a", description := none
  , status := TaskStatus.todo, priority := TaskPriority.medium
  , createdAt := 0, updatedAt := none, dueDate := none }

/-- C1, counterexample to the claim as stated: from the default board, the
operation sequence create("a", TODO, id t1), create("b", DONE, id t2),
updateTask("t1", partial with id field t2) — three legal store operations,
the created uuids even being fresh — leaves the id "t2" present on the board
in **two** columns' task lists, because `updateTask` merges a caller-supplied
`id` field into the task. -/
theorem column_exclusivity_cex :
    "t2" ∈ taskIds (runOps exInit exBadOps) ∧
      (runOps exInit exBadOps).columns.countP
        (fun c => c.tasks.any (fun u => u.id == "t2")) = 2 := by
  constructor
  · decide
  · decide

/-- C1 (amended): starting from the default board, after every sequence of
createTask/updateTask/deleteTask/moveTask operations in which each created
task's generated id is fresh (as `uuidv4()` ensures) and no updateTask
partial contains the `id` key or the `status` key with value `undefined`,
every task id present anywhere on the board appears in exactly one column's
task list, and every task's `status` equals the status of the column holding
it. Both exclusions are necessary: a partial with an `id` key duplicates an
existing id across columns (see the counterexample), and a partial with
`{status: undefined}` — type-legal, since the project compiles without
`exactOptionalPropertyTypes` — takes the in-place branch (the spread's
truthiness test fails) and stores `undefined` in the task's `status`, so the
task no longer matches its column; that run leaves the `Task` interface and
is not representable as a well-typed `Board`, which is why it is excluded by
`goodOp` rather than refuted by evaluation. -/
theorem column_exclusivity_invariant (i0 i1 i2 i3 : String) (ops : List Op)
    (hgood : goodSeq (initialBoard i0 i1 i2 i3) ops) :
    ∀ tid ∈ taskIds (runOps (initialBoard i0 i1 i2 i3) ops),
      (runOps (initialBoard i0 i1 i2 i3) ops).columns.countP
          (fun c => c.tasks.any (fun u => u.id == tid)) = 1 ∧
      ∀ c ∈ (runOps (initialBoard i0 i1 i2 i3) ops).columns,
        ∀ u ∈ c.tasks, u.id = tid → u.status = c.status := by
  intro tid hmem
  have hInv := BoardInv.runOps ops _ (boardInv_initialBoard i0 i1 i2 i3) hgood
  exact ⟨countP_columns_eq_one hInv.2.1 hmem,
    fun c hc u hu _ => hInv.2.2 c hc u hu⟩

/-- Witness for C1 at a concrete admissible operation sequence. -/
theorem column_exclusivity_invariant_witness :
    goodSeq (initialBoard "b0" "col-todo" "col-doing" "col-done") exGoodOps ∧
    "t1" ∈ taskIds
      (runOps (initialBoard "b0" "col-todo" "col-doing" "col-done") exGoodOps) ∧
    ((runOps (initialBoard "b0" "col-todo" "col-doing" "col-done")
          exGoodOps).columns.countP
        (fun c => c.tasks.any (fun u => u.id == "t1")) = 1 ∧
      ∀ c ∈ (runOps (initialBoard "b0" "col-todo" "col-doing" "col-done")
          exGoodOps).columns,
        ∀ u ∈ c.tasks, u.id = "t1" → u.status = c.status) :=
  ⟨by decide, by decide,
    column_exclusivity_invariant "b0" "col-todo" "col-doing" "col-done"
      exGoodOps (by decide) "t1" (by decide)⟩

/-! ## Branch equations for `updateTask` and `moveTask` -/

theorem moveTask_eq_of_find {b : Board} {tid : String} {t : Task} {i : Nat}
    (s : TaskStatus) (now : Nat)
    (hfind : findTask tid b.columns = some (t, i)) :
    Kanban.moveTask b tid s now =
      removeThenAppend b i tid { t with status := s, updatedAt := some now }
        s := by
  unfold Kanban.moveTask
  rw [hfind]

theorem updateTask_eq_move_branch {b : Board} {tid : String} {t : Task}
    {i : Nat} {p : TaskPatch} {s : TaskStatus} (now : Nat)
    (hfind : findTask tid b.columns = some (t, i))
    (hp : p.status = JsOpt.val s) (hne : s ≠ t.status) :
    Kanban.updateTask b tid p now =
      removeThenAppend b i tid (mergedWithNow p now t) s := by
  unfold Kanban.updateTask
  rw [hfind, hp]
  show (if s ≠ t.status then
      removeThenAppend b i tid (mergedWithNow p now t) s
    else Kanban.updateTaskInPlace b tid p now) = _
  rw [if_pos hne]

theorem updateTask_eq_inplace_of_same {b : Board} {tid : String} {t : Task}
    {i : Nat} {p : TaskPatch} {s : TaskStatus} (now : Nat)
    (hfind : findTask tid b.columns = some (t, i))
    (hp : p.status = JsOpt.val s) (heq : s = t.status) :
    Kanban.updateTask b tid p now = Kanban.updateTaskInPlace b tid p now := by
  unfold Kanban.updateTask
  rw [hfind, hp]
  show (if s ≠ t.status then
      removeThenAppend b i tid (mergedWithNow p now t) s
    else Kanban.updateTaskInPlace b tid p now) = _
  rw [if_neg (by simp [heq])]

theorem updateTask_eq_inplace_of_none {b : Board} {tid : String} {t : Task}
    {i : Nat} {p : TaskPatch} (now : Nat)
    (hfind : findTask tid b.columns = some (t, i))
    (hp : p.status = JsOpt.absent) :
    Kanban.updateTask b tid p now = Kanban.updateTaskInPlace b tid p now := by
  unfold Kanban.updateTask
  rw [hfind, hp]

/-- A partial with the `status` key present but `undefined` is representable
and fails the source's truthiness test, so `updateTask` takes the in-place
branch for it; inside that branch the source's spread stores `undefined` in
`status`, leaving the `Task` interface, which is why `goodOp` excludes such
partials from the amended claim C1. -/
theorem updateTask_eq_inplace_of_undef {b : Board} {tid : String} {t : Task}
    {i : Nat} {p : TaskPatch} (now : Nat)
    (hfind : findTask tid b.columns = some (t, i))
    (hp : p.status = JsOpt.undef) :
    Kanban.updateTask b tid p now = Kanban.updateTaskInPlace b tid p now := by
  unfold Kanban.updateTask
  rw [hfind, hp]

theorem updateTask_eq_of_not_found {b : Board} {tid : String} (p : TaskPatch)
    (now : Nat) (hfind : findTask tid b.columns = none) :
    Kanban.updateTask b tid p now = b := by
  unfold Kanban.updateTask
  rw [hfind]

theorem moveTask_eq_of_not_found {b : Board} {tid : String} (s : TaskStatus)
    (now : Nat) (hfind : findTask tid b.columns = none) :
    Kanban.moveTask b tid s now = b := by
  unfold Kanban.moveTask
  rw [hfind]

theorem findTask_eq_none_of_not_mem {b : Board} {tid : String}
    (h : tid ∉ taskIds b) : findTask tid b.columns = none :=
  findTask_eq_none.mpr fun c hc t ht hid =>
    h (mem_taskIds_iff.mpr ⟨c, hc, t, ht, hid⟩)

/-! ## Claim C4 -/

/-- C4: on a task id that is not present in any column, `updateTask`,
`moveTask` and `deleteTask` all leave the board unchanged (silent no-op, no
error surfaced). -/
theorem unknown_id_noop (b : Board) (tid : String) (p : TaskPatch)
    (s : TaskStatus) (now now2 : Nat) (h : tid ∉ taskIds b) :
    Kanban.updateTask b tid p now = b ∧ Kanban.moveTask b tid s now2 = b ∧
      Kanban.deleteTask b tid = b :=
  ⟨updateTask_eq_of_not_found p now (findTask_eq_none_of_not_mem h),
    moveTask_eq_of_not_found s now2 (findTask_eq_none_of_not_mem h),
    deleteTask_of_not_mem h⟩

/-- Witness for C4 at a concrete board and unknown id. -/
theorem unknown_id_noop_witness :
    Kanban.updateTask exInit "ghost" { title := JsOpt.val "x" } 3 = exInit ∧
      Kanban.moveTask exInit "ghost" TaskStatus.done 4 = exInit ∧
      Kanban.deleteTask exInit "ghost" = exInit :=
  unknown_id_noop exInit "ghost" { title := JsOpt.val "x" } TaskStatus.done 3 4
    (by decide)

/-! ## Claim C9 -/

/-- C9: `deleteTask` is idempotent, and on an id that is present nowhere it
leaves the board unchanged. -/
theorem deleteTask_idempotent (b : Board) (tid : String) :
    Kanban.deleteTask (Kanban.deleteTask b tid) tid = Kanban.deleteTask b tid ∧
      (tid ∉ taskIds b → Kanban.deleteTask b tid = b) := by
  constructor
  · have hf : ∀ l : List Task,
        (l.filter (fun u : Task => u.id != tid)).filter
          (fun u : Task => u.id != tid) =
        l.filter (fun u : Task => u.id != tid) :=
      fun l => List.filter_eq_self.mpr fun a ha =>
        List.of_mem_filter (p := fun u : Task => u.id != tid) ha
    have hrm : ∀ c : Column,
        removeFromColumn tid (removeFromColumn tid c) = removeFromColumn tid c := by
      intro c
      show { c with tasks :=
        ((c.tasks.filter (fun u : Task => u.id != tid)).filter
          (fun u : Task => u.id != tid)) } = removeFromColumn tid c
      rw [hf]
      rfl
    have hself : ∀ c ∈ b.columns.map (removeFromColumn tid),
        removeFromColumn tid c = c := by
      intro c hc
      obtain ⟨c0, hc0, rfl⟩ := List.mem_map.mp hc
      exact hrm c0
    show Board.mk b.id b.title
        ((b.columns.map (removeFromColumn tid)).map (removeFromColumn tid)) =
      Kanban.deleteTask b tid
    rw [map_eq_self_of hself]
    rfl
  · exact deleteTask_of_not_mem

/-- Witness for C9: the no-op conjunct applied at a concrete board. -/
theorem deleteTask_idempotent_witness :
    Kanban.deleteTask exInit "ghost" = exInit :=
  (deleteTask_idempotent exInit "ghost").2 (by decide)

/-! ## Claim C10 -/

/-- C10: on an invariant-satisfying board, `moveTask` to the status the found
task already has is not a no-op: the task is removed from its position and
re-appended at the end of the same column's task list, with `updatedAt`
refreshed to the current time and all other fields unchanged, while every
other column is unchanged. -/
theorem moveTask_same_status_reappends (b : Board) (tid : String) (now : Nat)
    (t : Task) (i : Nat) (hInv : BoardInv b)
    (hfind : findTask tid b.columns = some (t, i)) :
    Kanban.moveTask b tid t.status now =
      { b with columns := b.columns.map fun c =>
          if c.status = t.status then
            { c with tasks := ((c.tasks.filter (fun u => u.id != tid)) ++
                [{ t with updatedAt := some now }]) }
          else c } := by
  obtain ⟨hst, hids, hmatch⟩ := hInv
  obtain ⟨pre, src, post, tpre, tpost, hcols, hieq, hsrc, hid, htpre, hpost⟩ :=
    findTask_spec hfind
  subst hieq
  have hnd : ((allTasksOf (pre ++ src :: post)).map (·.id)).Nodup := by
    rw [← hcols]; exact hids
  obtain ⟨hpre2, -, htpost2, -⟩ := ids_facts hnd hsrc
  have hsrcmem : src ∈ b.columns := by
    rw [hcols]; exact List.mem_append_right _ (List.mem_cons_self src post)
  have htmem : t ∈ src.tasks := by
    rw [hsrc]; exact List.mem_append_right _ (List.mem_cons_self t tpost)
  have hts : t.status = src.status := hmatch src hsrcmem t htmem
  have hstnd : (List.map (fun c : Column => c.status) (pre ++ src :: post)).Nodup := by
    rw [← hcols]; exact hst
  obtain ⟨hsl, hsr⟩ := map_nodup_split hstnd
  have hsrcF : removeFromColumn tid src = { src with tasks := tpre ++ tpost } := by
    show { src with tasks := src.tasks.filter (fun u => u.id != tid) } = _
    rw [hsrc, filter_out_middle htpre (fun u hu => hid ▸ htpost2 u hu) hid]
  have hdest : findIdxA (fun col => col.status == t.status)
      (pre ++ { src with tasks := tpre ++ tpost } :: post) = some pre.length := by
    apply findIdxA_append
    · intro c hc
      exact beq_eq_false_iff_ne.mpr fun hcs => hsl c hc (hcs.trans hts)
    · exact beq_iff_eq.mpr hts.symm
  have hL : Kanban.moveTask b tid t.status now =
      { b with columns := (pre ++ { src with tasks :=
          ((tpre ++ tpost) ++ [{ t with updatedAt := some now }]) } :: post) } := by
    rw [moveTask_eq_of_find t.status now hfind]
    unfold removeThenAppend
    rw [hcols, listModify_append, hsrcF, hdest]
    show { b with columns := (listModify
        (pre ++ { src with tasks := tpre ++ tpost } :: post) pre.length
        (appendToColumn { t with status := t.status, updatedAt := some now })) } = _
    rw [listModify_append]
    rfl
  have hR : { b with columns := b.columns.map fun c =>
        if c.status = t.status then
          { c with tasks := ((c.tasks.filter (fun u => u.id != tid)) ++
              [{ t with updatedAt := some now }]) }
        else c } =
      { b with columns := (pre ++ { src with tasks :=
          ((tpre ++ tpost) ++ [{ t with updatedAt := some now }]) } :: post) } := by
    rw [hcols]
    simp only [List.map_append, List.map_cons]
    rw [if_pos hts.symm, hsrc,
      filter_out_middle htpre (fun u hu => hid ▸ htpost2 u hu) hid,
      map_eq_self_of (l := pre) fun c hc =>
        if_neg fun hcs => hsl c hc (hcs.trans hts),
      map_eq_self_of (l := post) fun c hc =>
        if_neg fun hcs => hsr c hc (hcs.trans hts)]
  exact hL.trans hR.symm

/-- Witness for C10 at a concrete two-task board. -/
theorem moveTask_same_status_reappends_witness :
    BoardInv (runOps exInit exTwoTodoOps) ∧
    findTask "t1" (runOps exInit exTwoTodoOps).columns = some (exTaskOne, 0) ∧
    Kanban.moveTask (runOps exInit exTwoTodoOps) "t1" exTaskOne.status 9 =
      { runOps exInit exTwoTodoOps with
        columns := (runOps exInit exTwoTodoOps).columns.map fun c =>
          if c.status = exTaskOne.status then
            { c with tasks := ((c.tasks.filter (fun u => u.id != "t1")) ++
                [{ exTaskOne with updatedAt := some 9 }]) }
          else c } :=
  ⟨by decide, by decide,
    moveTask_same_status_reappends (runOps exInit exTwoTodoOps) "t1" 9
      exTaskOne 0 (by decide) (by decide)⟩

/-! ## Claim C2 -/

/-- Equality of two column lists in column/task-membership terms: same
column skeletons in the same order, and for each column the same tasks up to
order (a permutation of full task records). -/
def colsMembEquiv : List Column → List Column → Prop
  | [], [] => True
  | c1 :: r1, c2 :: r2 =>
    (c1.id = c2.id ∧ c1.title = c2.title ∧ c1.status = c2.status ∧
      List.Perm c1.tasks c2.tasks) ∧ colsMembEquiv r1 r2
  | _, _ => False

/-- Equality of two boards in column/task-membership terms. -/
def boardMembEquiv (b1 b2 : Board) : Prop :=
  b1.id = b2.id ∧ b1.title = b2.title ∧ colsMembEquiv b1.columns b2.columns

theorem colsMembEquiv_refl : ∀ l : List Column, colsMembEquiv l l
  | [] => trivial
  | _ :: r => ⟨⟨rfl, rfl, rfl, List.Perm.refl _⟩, colsMembEquiv_refl r⟩

theorem colsMembEquiv_append {l1 l2 : List Column} : ∀ pre : List Column,
    colsMembEquiv l1 l2 → colsMembEquiv (pre ++ l1) (pre ++ l2)
  | [], h => h
  | _ :: r, h => ⟨⟨rfl, rfl, rfl, List.Perm.refl _⟩, colsMembEquiv_append r h⟩

theorem boardMembEquiv_of_eq {b1 b2 : Board} (h : b1 = b2) :
    boardMembEquiv b1 b2 :=
  h ▸ ⟨rfl, rfl, colsMembEquiv_refl b1.columns⟩

theorem updateColumnInPlace_of_not_mem {c : Column} {tid : String}
    (p : TaskPatch) (now : Nat) (h : ∀ u ∈ c.tasks, u.id ≠ tid) :
    updateColumnInPlace tid p now c = c := by
  unfold updateColumnInPlace
  rw [findIdxA_eq_none.mpr fun u hu => beq_eq_false_iff_ne.mpr (h u hu)]

/-- C2: on an invariant-satisfying board and an id present on it,
`moveTask(id, S)` and `updateTask(id, partial with only status S)` produce
boards that are equal in column/task-membership terms: the same column
skeletons and, per column, the same task records up to order — the moved
task carrying status `S` and refreshed `updatedAt` in both. -/
theorem moveTask_updateTask_equiv (b : Board) (tid : String) (S : TaskStatus)
    (now : Nat) (hInv : BoardInv b) (hmem : tid ∈ taskIds b) :
    boardMembEquiv (Kanban.moveTask b tid S now)
      (Kanban.updateTask b tid { status := JsOpt.val S } now) := by
  obtain ⟨t, i, hfind⟩ := findTask_of_mem (mem_taskIds_iff.mp hmem)
  by_cases hss : S ≠ t.status
  · apply boardMembEquiv_of_eq
    rw [moveTask_eq_of_find S now hfind,
      updateTask_eq_move_branch now hfind rfl hss]
    rfl
  · push_neg at hss
    subst hss
    obtain ⟨hst, hids, hmatch⟩ := hInv
    obtain ⟨pre, src, post, tpre, tpost, hcols, hieq, hsrc, hid, htpre, hpost⟩ :=
      findTask_spec hfind
    subst hieq
    have hnd : ((allTasksOf (pre ++ src :: post)).map (·.id)).Nodup := by
      rw [← hcols]; exact hids
    obtain ⟨hpre2, -, htpost2, -⟩ := ids_facts hnd hsrc
    have hsrcmem : src ∈ b.columns := by
      rw [hcols]; exact List.mem_append_right _ (List.mem_cons_self src post)
    have htmem : t ∈ src.tasks := by
      rw [hsrc]; exact List.mem_append_right _ (List.mem_cons_self t tpost)
    have hts : t.status = src.status := hmatch src hsrcmem t htmem
    have hstnd : (List.map (fun c : Column => c.status)
        (pre ++ src :: post)).Nodup := by
      rw [← hcols]; exact hst
    obtain ⟨hsl, hsr⟩ := map_nodup_split hstnd
    have hsrcF : removeFromColumn tid src = { src with tasks := tpre ++ tpost } := by
      show { src with tasks := src.tasks.filter (fun u => u.id != tid) } = _
      rw [hsrc, filter_out_middle htpre (fun u hu => hid ▸ htpost2 u hu) hid]
    have hdest : findIdxA (fun col => col.status == t.status)
        (pre ++ { src with tasks := tpre ++ tpost } :: post) =
        some pre.length := by
      apply findIdxA_append
      · intro c hc
        exact beq_eq_false_iff_ne.mpr fun hcs => hsl c hc (hcs.trans hts)
      · exact beq_iff_eq.mpr hts.symm
    rw [moveTask_eq_of_find t.status now hfind,
      updateTask_eq_inplace_of_same now hfind rfl rfl]
    have hL : removeThenAppend b pre.length tid
        { t with status := t.status, updatedAt := some now } t.status =
        { b with columns := (pre ++ { src with tasks :=
            ((tpre ++ tpost) ++ [{ t with updatedAt := some now }]) } :: post) } := by
      unfold removeThenAppend
      rw [hcols, listModify_append, hsrcF, hdest]
      show { b with columns := (listModify
          (pre ++ { src with tasks := tpre ++ tpost } :: post) pre.length
          (appendToColumn { t with status := t.status, updatedAt := some now })) } = _
      rw [listModify_append]
      rfl
    have hR : Kanban.updateTaskInPlace b tid { status := JsOpt.val t.status } now =
        { b with columns := (pre ++ { src with tasks :=
            (tpre ++ { t with updatedAt := some now } :: tpost) } :: post) } := by
      show { b with columns :=
        b.columns.map (updateColumnInPlace tid { status := JsOpt.val t.status } now) } = _
      rw [hcols, List.map_append, List.map_cons,
        map_eq_self_of (l := pre) fun c hc =>
          updateColumnInPlace_of_not_mem _ _ fun u hu => hid ▸ hpre2 c hc u hu,
        map_eq_self_of (l := post) fun c hc =>
          updateColumnInPlace_of_not_mem _ _ (hpost c hc)]
      have hfi : findIdxA (fun u => u.id == tid) src.tasks = some tpre.length := by
        rw [hsrc]
        apply findIdxA_append
        · intro u hu; exact beq_eq_false_iff_ne.mpr (htpre u hu)
        · exact beq_iff_eq.mpr hid
      have hsrcU : updateColumnInPlace tid { status := JsOpt.val t.status } now src =
          { src with tasks :=
            (tpre ++ { t with updatedAt := some now } :: tpost) } := by
        unfold updateColumnInPlace
        rw [hfi]
        show { src with tasks := (listModify src.tasks tpre.length
          (mergedWithNow { status := JsOpt.val t.status } now)) } = _
        rw [hsrc, listModify_append]
        rfl
      rw [hsrcU]
    rw [hL, hR]
    refine ⟨rfl, rfl, ?_⟩
    apply colsMembEquiv_append
    refine ⟨⟨rfl, rfl, rfl, ?_⟩, colsMembEquiv_refl post⟩
    exact (List.perm_append_singleton _ _).trans List.perm_middle.symm

/-- Witness for C2 at a concrete board, moving a TODO task to DONE. -/
theorem moveTask_updateTask_equiv_witness :
    BoardInv (runOps exInit exTwoTodoOps) ∧
    "t1" ∈ taskIds (runOps exInit exTwoTodoOps) ∧
    boardMembEquiv
      (Kanban.moveTask (runOps exInit exTwoTodoOps) "t1" TaskStatus.done 9)
      (Kanban.updateTask (runOps exInit exTwoTodoOps) "t1"
        { status := JsOpt.val TaskStatus.done } 9) :=
  ⟨by decide, by decide,
    moveTask_updateTask_equiv (runOps exInit exTwoTodoOps) "t1"
      TaskStatus.done 9 (by decide) (by decide)⟩

/-! ## Claim C3 -/

theorem removeThenAppend_no_dest {b : Board} {tid : String} {t : Task}
    {i : Nat} (x : Task) {s : TaskStatus} (hids : (taskIds b).Nodup)
    (hfind : findTask tid b.columns = some (t, i))
    (hno : ∀ c ∈ b.columns, c.status ≠ s) :
    removeThenAppend b i tid x s = Kanban.deleteTask b tid := by
  unfold removeThenAppend
  have hcols2 : listModify b.columns i (removeFromColumn tid) =
      (Kanban.deleteTask b tid).columns :=
    congrArg Board.columns (removal_eq_delete hids hfind)
  rw [hcols2]
  have hnone : findIdxA (fun col => col.status == s)
      (Kanban.deleteTask b tid).columns = none := by
    apply findIdxA_eq_none.mpr
    intro c hc
    obtain ⟨c0, hc0, rfl⟩ := List.mem_map.mp
      (show c ∈ b.columns.map (removeFromColumn tid) from hc)
    exact beq_eq_false_iff_ne.mpr
      (show (removeFromColumn tid c0).status ≠ s from hno c0 hc0)
  rw [hnone]
  rfl

/-- C3: when a status value has no matching column, `createTask` with that
status changes nothing (the constructed task is inserted nowhere), while
`updateTask` with that status in its partial fields and `moveTask` with that
status as destination each remove the located task from its source column and
re-insert it nowhere — they coincide with `deleteTask`. -/
theorem missing_destination_drops (b : Board) (tid : String) (p : TaskPatch)
    (S : TaskStatus) (now : Nat) (title : String) (descr : Option String)
    (prio : TaskPriority) (due : Option Nat) (nid code : String)
    (hInv : BoardInv b) (hmem : tid ∈ taskIds b)
    (hno : ∀ c ∈ b.columns, c.status ≠ S) (hp : p.status = JsOpt.val S) :
    createTask b title descr S prio due nid code now = b ∧
    Kanban.updateTask b tid p now = Kanban.deleteTask b tid ∧
    Kanban.moveTask b tid S now = Kanban.deleteTask b tid := by
  obtain ⟨t, i, hfind⟩ := findTask_of_mem (mem_taskIds_iff.mp hmem)
  have hsrc : ∃ src ∈ b.columns, t ∈ src.tasks := by
    obtain ⟨pre, src, post, tpre, tpost, hcols, -, hs, -, -, -⟩ :=
      findTask_spec hfind
    refine ⟨src, ?_, ?_⟩
    · rw [hcols]; exact List.mem_append_right _ (List.mem_cons_self _ _)
    · rw [hs]; exact List.mem_append_right _ (List.mem_cons_self _ _)
  obtain ⟨src, hsrcm, htm⟩ := hsrc
  have hts : t.status = src.status := hInv.2.2 src hsrcm t htm
  have htsne : S ≠ t.status := fun h => hno src hsrcm (h.trans hts).symm
  refine ⟨createTask_no_col hno title descr prio due nid code now, ?_, ?_⟩
  · rw [updateTask_eq_move_branch now hfind hp htsne]
    exact removeThenAppend_no_dest _ hInv.2.1 hfind hno
  · rw [moveTask_eq_of_find S now hfind]
    exact removeThenAppend_no_dest _ hInv.2.1 hfind hno

/-- Witness for C3: on the default board, BACKLOG has no column. -/
theorem missing_destination_drops_witness :
    BoardInv (runOps exInit exTwoTodoOps) ∧
    "t1" ∈ taskIds (runOps exInit exTwoTodoOps) ∧
    (∀ c ∈ (runOps exInit exTwoTodoOps).columns,
      c.status ≠ TaskStatus.backlog) ∧
    (createTask (runOps exInit exTwoTodoOps) "x" none TaskStatus.backlog
        TaskPriority.medium none "t7" "TASK-107" 7 = runOps exInit exTwoTodoOps ∧
      Kanban.updateTask (runOps exInit exTwoTodoOps) "t1"
          { status := JsOpt.val TaskStatus.backlog } 7 =
        Kanban.deleteTask (runOps exInit exTwoTodoOps) "t1" ∧
      Kanban.moveTask (runOps exInit exTwoTodoOps) "t1" TaskStatus.backlog 7 =
        Kanban.deleteTask (runOps exInit exTwoTodoOps) "t1") :=
  ⟨by decide, by decide, by decide,
    missing_destination_drops (runOps exInit exTwoTodoOps) "t1"
      { status := JsOpt.val TaskStatus.backlog } TaskStatus.backlog 7 "x" none
      TaskPriority.medium none "t7" "TASK-107" (by decide) (by decide)
      (by decide) rfl⟩

/-! ## Claim C8 -/

theorem mem_tasks_listModify_remove {cols : List Column} {i : Nat}
    {tid : String} {c : Column}
    (hc : c ∈ listModify cols i (removeFromColumn tid)) {u : Task}
    (hu : u ∈ c.tasks) : ∃ c0 ∈ cols, u ∈ c0.tasks := by
  rcases mem_listModify hc with h | ⟨c0, hc0, rfl⟩
  · exact ⟨c, h, hu⟩
  · exact ⟨c0, hc0, List.mem_of_mem_filter hu⟩

theorem mem_allTasks_removeThenAppend {b : Board} {i : Nat} {tid : String}
    {x : Task} {s : TaskStatus} {u : Task}
    (hu : u ∈ allTasks (removeThenAppend b i tid x s)) :
    u = x ∨ u ∈ allTasks b := by
  unfold removeThenAppend at hu
  split at hu
  · obtain ⟨c, hc, huc⟩ := mem_allTasksOf.mp hu
    rcases mem_listModify hc with h2 | ⟨c0, hc0, rfl⟩
    · obtain ⟨c1, hc1, hu1⟩ := mem_tasks_listModify_remove h2 huc
      exact Or.inr (mem_allTasksOf.mpr ⟨c1, hc1, hu1⟩)
    · rcases List.mem_append.mp (show u ∈ c0.tasks ++ [x] from huc) with h3 | h3
      · obtain ⟨c1, hc1, hu1⟩ := mem_tasks_listModify_remove hc0 h3
        exact Or.inr (mem_allTasksOf.mpr ⟨c1, hc1, hu1⟩)
      · exact Or.inl (by simpa using h3)
  · obtain ⟨c, hc, huc⟩ := mem_allTasksOf.mp hu
    obtain ⟨c1, hc1, hu1⟩ := mem_tasks_listModify_remove hc huc
    exact Or.inr (mem_allTasksOf.mpr ⟨c1, hc1, hu1⟩)

theorem mem_allTasks_updateTaskInPlace {b : Board} {tid : String}
    {p : TaskPatch} {now : Nat} {u : Task}
    (hu : u ∈ allTasks (Kanban.updateTaskInPlace b tid p now)) :
    u ∈ allTasks b ∨ ∃ v ∈ allTasks b, u = mergedWithNow p now v := by
  obtain ⟨c, hc, huc⟩ := mem_allTasksOf.mp hu
  obtain ⟨c0, hc0, rfl⟩ := List.mem_map.mp
    (show c ∈ b.columns.map (updateColumnInPlace tid p now) from hc)
  revert huc
  unfold updateColumnInPlace
  split
  · next k hfi =>
    intro huc
    rcases mem_listModify
        (show u ∈ listModify c0.tasks k (mergedWithNow p now) from huc) with
      h | ⟨v, hv, rfl⟩
    · exact Or.inl (mem_allTasksOf.mpr ⟨c0, hc0, h⟩)
    · exact Or.inr ⟨v, mem_allTasksOf.mpr ⟨c0, hc0, hv⟩, rfl⟩
  · intro huc
    exact Or.inl (mem_allTasksOf.mpr ⟨c0, hc0, huc⟩)

/-- C8, counterexample to the claim as stated: `updateTask` merges any
caller-supplied `id` field, so on a board whose only task has id "t1",
updateTask("t1", partial with id "t9") leaves a board whose only task has id
"t9" — the task's id did not survive the call. -/
theorem updateTask_changes_id_cex :
    (allTasks (Kanban.updateTask (runOps exInit exGoodOps) "t1"
        { id := JsOpt.val "t9" } 5)).map (fun t => t.id) = ["t9"] ∧
    (allTasks (runOps exInit exGoodOps)).map (fun t => t.id) = ["t1"] :=
  ⟨by decide, by decide⟩

/-- C8 (amended): when the partial fields do not contain the `id` or
`createdAt` keys, every task on the board after `updateTask` keeps the `id`
and `createdAt` of a task that was on the board before the call. -/
theorem updateTask_preserves_id_createdAt (b : Board) (tid : String)
    (p : TaskPatch) (now : Nat) (hpid : p.id = JsOpt.absent)
    (hpca : p.createdAt = JsOpt.absent) :
    ∀ u ∈ allTasks (Kanban.updateTask b tid p now),
      ∃ v ∈ allTasks b, u.id = v.id ∧ u.createdAt = v.createdAt := by
  intro u hu
  revert hu
  unfold Kanban.updateTask
  split
  · exact fun hu => ⟨u, hu, rfl, rfl⟩
  · next t i hfind =>
    split
    · next s hp2 =>
      split
      · next hss =>
        intro hu
        rcases mem_allTasks_removeThenAppend hu with rfl | h
        · exact ⟨t, findTask_mem_allTasks hfind, mergedWithNow_id hpid now t,
            mergedWithNow_createdAt hpca now t⟩
        · exact ⟨u, h, rfl, rfl⟩
      · next =>
        intro hu
        rcases mem_allTasks_updateTaskInPlace hu with h | ⟨v, hv, rfl⟩
        · exact ⟨u, h, rfl, rfl⟩
        · exact ⟨v, hv, mergedWithNow_id hpid now v,
            mergedWithNow_createdAt hpca now v⟩
    · next =>
      intro hu
      rcases mem_allTasks_updateTaskInPlace hu with h | ⟨v, hv, rfl⟩
      · exact ⟨u, h, rfl, rfl⟩
      · exact ⟨v, hv, mergedWithNow_id hpid now v,
          mergedWithNow_createdAt hpca now v⟩
    · next =>
      intro hu
      rcases mem_allTasks_updateTaskInPlace hu with h | ⟨v, hv, rfl⟩
      · exact ⟨u, h, rfl, rfl⟩
      · exact ⟨v, hv, mergedWithNow_id hpid now v,
          mergedWithNow_createdAt hpca now v⟩

/-- Witness for C8 at a concrete title-only update. -/
theorem updateTask_preserves_id_createdAt_witness :
    (({ title := JsOpt.val "new" } : TaskPatch).id = JsOpt.absent) ∧
    (({ title := JsOpt.val "new" } : TaskPatch).createdAt = JsOpt.absent) ∧
    ({ exTaskOne with title := "new", updatedAt := some 9 } : Task) ∈
      allTasks (Kanban.updateTask (runOps exInit exTwoTodoOps) "t1"
        { title := JsOpt.val "new" } 9) ∧
    ∃ v ∈ allTasks (runOps exInit exTwoTodoOps),
      ({ exTaskOne with title := "new", updatedAt := some 9 } : Task).id = v.id ∧
      ({ exTaskOne with title := "new", updatedAt := some 9 } : Task).createdAt =
        v.createdAt :=
  ⟨rfl, rfl, by decide,
    updateTask_preserves_id_createdAt (runOps exInit exTwoTodoOps) "t1"
      { title := JsOpt.val "new" } 9 rfl rfl
      { exTaskOne with title := "new", updatedAt := some 9 } (by decide)⟩

/-! ## Claim C5 -/

theorem sum_filter_lengths (q : Task → Bool) : ∀ cols : List Column,
    (((cols.map fun c => { c with tasks := c.tasks.filter q }).map
        fun c => c.tasks.length).sum) =
      ((allTasksOf cols).filter q).length
  | [] => rfl
  | c :: cs => by
    simp only [List.map_cons, List.sum_cons, allTasksOf_cons,
      List.filter_append, List.length_append, sum_filter_lengths q cs]

/-- C5: `getFilteredBoard` keeps the board and column skeletons and replaces
each column's tasks by exactly the subset matching both active filters (a
task is visible iff the status filter is unset or matches, and the priority
filter is unset or matches); with status filter `P` and no priority filter,
every visible task has status `P` and the total visible count equals the
number of tasks of status `P` on the unfiltered board. -/
theorem getFilteredBoard_correct (b : Board) (fs : Option TaskStatus)
    (fp : Option TaskPriority) (P : TaskStatus) :
    ((getFilteredBoard b fs fp).id = b.id ∧
      (getFilteredBoard b fs fp).title = b.title) ∧
    List.Forall₂ (fun c c1 =>
        c1.id = c.id ∧ c1.title = c.title ∧ c1.status = c.status ∧
        ∀ t : Task, t ∈ c1.tasks ↔ t ∈ c.tasks ∧
          (∀ s, fs = some s → t.status = s) ∧
          (∀ q, fp = some q → t.priority = q))
      b.columns (getFilteredBoard b fs fp).columns ∧
    (∀ c1 ∈ (getFilteredBoard b (some P) none).columns, ∀ t ∈ c1.tasks,
      t.status = P) ∧
    (((getFilteredBoard b (some P) none).columns.map
        fun c => c.tasks.length).sum) =
      ((allTasks b).filter fun t => t.status == P).length := by
  refine ⟨⟨rfl, rfl⟩, ?_, ?_, ?_⟩
  · rw [show (getFilteredBoard b fs fp).columns = b.columns.map (fun column =>
        { column with tasks := column.tasks.filter fun task : Task =>
          (match fs with
            | none => true
            | some s => task.status == s) &&
          (match fp with
            | none => true
            | some q => task.priority == q) }) from rfl,
      List.forall₂_map_right_iff, List.forall₂_same]
    intro c hc
    refine ⟨rfl, rfl, rfl, fun t => ?_⟩
    rcases fs with _ | s0 <;> rcases fp with _ | q0 <;>
      simp [List.mem_filter, and_assoc]
  · intro c1 hc1 t ht
    obtain ⟨c0, hc0, rfl⟩ := List.mem_map.mp
      (show c1 ∈ b.columns.map (fun column =>
        { column with tasks := column.tasks.filter fun task : Task =>
          (task.status == P) && true }) from hc1)
    have := List.of_mem_filter
      (p := fun task : Task => (task.status == P) && true) ht
    simpa using this
  · show (((b.columns.map fun column =>
        { column with tasks := column.tasks.filter fun task : Task =>
          (task.status == P) && true }).map fun c => c.tasks.length).sum) = _
    rw [sum_filter_lengths (fun task : Task => (task.status == P) && true) b.columns]
    have hq : (allTasksOf b.columns).filter
        (fun task : Task => (task.status == P) && true) =
        (allTasksOf b.columns).filter (fun t : Task => t.status == P) := by
      simp only [Bool.and_true]
    rw [hq]
    rfl

/-! ## Claim C6 -/

/-- Modelled from the spec: the persistence adapter (zustand JSON storage,
not in `src/`) serializes `Date` values as timestamp strings; a timestamp is
rendered as its decimal digit string. -/
def dateToString (n : Nat) : String :=
  String.mk (((Nat.digits 10 n).map Nat.digitChar).reverse)

/-- Modelled from the spec: inverse character-to-digit step of the date
re-hydration on load. -/
def charToDigit (c : Char) : Nat :=
  c.toNat - 48

/-- Modelled from the spec: re-hydration of a serialized timestamp string to
a date value on load. -/
def dateOfString (s : String) : Nat :=
  Nat.ofDigits 10 ((s.data.map charToDigit).reverse)

theorem dateOfString_dateToString (n : Nat) :
    dateOfString (dateToString n) = n := by
  unfold dateOfString dateToString
  show Nat.ofDigits 10
    (((((Nat.digits 10 n).map Nat.digitChar).reverse).map charToDigit).reverse) = n
  rw [List.map_reverse, List.reverse_reverse, List.map_map]
  have hcd : ∀ d ∈ Nat.digits 10 n, charToDigit (Nat.digitChar d) = d := by
    intro d hd
    have hlt : d < 10 := Nat.digits_lt_base (by norm_num) hd
    interval_cases d <;> rfl
  have h2 : List.map (charToDigit ∘ Nat.digitChar) (Nat.digits 10 n) =
      Nat.digits 10 n :=
    map_eq_self_of (f := charToDigit ∘ Nat.digitChar) fun d hd => hcd d hd
  rw [h2, Nat.ofDigits_digits]

/-- Modelled from the spec: the enum string stored for a status. -/
def statusToString : TaskStatus → String
  | .backlog => "backlog"
  | .todo => "todo"
  | .in_progress => "in_progress"
  | .done => "done"

/-- Modelled from the spec: decoding of a stored status string. -/
def statusOfString (s : String) : Option TaskStatus :=
  if s = "backlog" then some .backlog
  else if s = "todo" then some .todo
  else if s = "in_progress" then some .in_progress
  else if s = "done" then some .done
  else none

/-- Modelled from the spec: the enum string stored for a priority. -/
def priorityToString : TaskPriority → String
  | .low => "low"
  | .medium => "medium"
  | .high => "high"

/-- Modelled from the spec: decoding of a stored priority string. -/
def priorityOfString (s : String) : Option TaskPriority :=
  if s = "low" then some .low
  else if s = "medium" then some .medium
  else if s = "high" then some .high
  else none

theorem statusOfString_statusToString (st : TaskStatus) :
    statusOfString (statusToString st) = some st := by
  cases st <;> rfl

theorem priorityOfString_priorityToString (q : TaskPriority) :
    priorityOfString (priorityToString q) = some q := by
  cases q <;> rfl

/-- Modelled from the spec: a task as serialized field-for-field, with
`Date`-valued fields as timestamp strings. -/
structure SerTask where
  id : String
  title : String
  description : Option String
  status : String
  priority : String
  createdAt : String
  updatedAt : Option String
  dueDate : Option String

/-- Modelled from the spec: a column as serialized field-for-field. -/
structure SerColumn where
  id : String
  title : String
  status : String
  tasks : List SerTask

/-- Modelled from the spec: a board as serialized field-for-field. -/
structure SerBoard where
  id : String
  title : String
  columns : List SerColumn

/-- Modelled from the spec: serialization of one task. -/
def serializeTask (t : Task) : SerTask :=
  { id := t.id
    title := t.title
    description := t.description
    status := statusToString t.status
    priority := priorityToString t.priority
    createdAt := dateToString t.createdAt
    updatedAt := t.updatedAt.map dateToString
    dueDate := t.dueDate.map dateToString }

/-- Modelled from the spec: deserialization of one task, re-hydrating dates. -/
def deserializeTask (st : SerTask) : Option Task :=
  match statusOfString st.status, priorityOfString st.priority with
  | some status, some priority =>
    some { id := st.id
           title := st.title
           description := st.description
           status := status
           priority := priority
           createdAt := dateOfString st.createdAt
           updatedAt := st.updatedAt.map dateOfString
           dueDate := st.dueDate.map dateOfString }
  | _, _ => none

/-- Modelled from the spec: deserialization of a task list. -/
def deserializeTasks : List SerTask → Option (List Task)
  | [] => some []
  | st :: rest =>
    match deserializeTask st, deserializeTasks rest with
    | some t, some ts => some (t :: ts)
    | _, _ => none

/-- Modelled from the spec: serialization of one column. -/
def serializeColumn (c : Column) : SerColumn :=
  { id := c.id
    title := c.title
    status := statusToString c.status
    tasks := c.tasks.map serializeTask }

/-- Modelled from the spec: deserialization of one column. -/
def deserializeColumn (sc : SerColumn) : Option Column :=
  match statusOfString sc.status, deserializeTasks sc.tasks with
  | some status, some tasks =>
    some { id := sc.id, title := sc.title, status := status, tasks := tasks }
  | _, _ => none

/-- Modelled from the spec: deserialization of a column list. -/
def deserializeColumns : List SerColumn → Option (List Column)
  | [] => some []
  | sc :: rest =>
    match deserializeColumn sc, deserializeColumns rest with
    | some c, some cs => some (c :: cs)
    | _, _ => none

/-- Modelled from the spec: serialization of the whole board, as written to
the `kanban-storage` slot. -/
def serializeBoard (b : Board) : SerBoard :=
  { id := b.id, title := b.title, columns := b.columns.map serializeColumn }

/-- Modelled from the spec: deserialization of the whole board on load. -/
def deserializeBoard (sb : SerBoard) : Option Board :=
  match deserializeColumns sb.columns with
  | some cols => some { id := sb.id, title := sb.title, columns := cols }
  | none => none

theorem deserializeTask_serializeTask (t : Task) :
    deserializeTask (serializeTask t) = some t := by
  obtain ⟨tid, ttitle, tdesc, tstatus, tprio, tca, tua, tdd⟩ := t
  unfold serializeTask deserializeTask
  rw [statusOfString_statusToString, priorityOfString_priorityToString]
  show some ({ id := tid, title := ttitle, description := tdesc
               , status := tstatus, priority := tprio
               , createdAt := dateOfString (dateToString tca)
               , updatedAt := (tua.map dateToString).map dateOfString
               , dueDate := (tdd.map dateToString).map dateOfString } : Task) =
    some ({ id := tid, title := ttitle, description := tdesc
            , status := tstatus, priority := tprio, createdAt := tca
            , updatedAt := tua, dueDate := tdd } : Task)
  rw [dateOfString_dateToString]
  cases tua <;> cases tdd <;> simp [dateOfString_dateToString]

theorem deserializeTasks_serialize : ∀ ts : List Task,
    deserializeTasks (ts.map serializeTask) = some ts
  | [] => rfl
  | t :: rest => by
    show (match deserializeTask (serializeTask t),
        deserializeTasks (rest.map serializeTask) with
      | some a, some as => some (a :: as)
      | _, _ => none) = some (t :: rest)
    rw [deserializeTask_serializeTask, deserializeTasks_serialize rest]

theorem deserializeColumn_serializeColumn (c : Column) :
    deserializeColumn (serializeColumn c) = some c := by
  obtain ⟨cid, ctitle, cstatus, ctasks⟩ := c
  unfold serializeColumn deserializeColumn
  rw [statusOfString_statusToString, deserializeTasks_serialize]

theorem deserializeColumns_serialize : ∀ cols : List Column,
    deserializeColumns (cols.map serializeColumn) = some cols
  | [] => rfl
  | c :: rest => by
    show (match deserializeColumn (serializeColumn c),
        deserializeColumns (rest.map serializeColumn) with
      | some a, some as => some (a :: as)
      | _, _ => none) = some (c :: rest)
    rw [deserializeColumn_serializeColumn, deserializeColumns_serialize rest]

/-- C6: serializing a board through the modelled persistence adapter and
deserializing it back yields the same board — same columns, same tasks, same
field values, with the `Date`-valued fields (serialized as timestamp strings)
re-hydrated to the original date values. -/
theorem persistence_round_trip (b : Board) :
    deserializeBoard (serializeBoard b) = some b := by
  obtain ⟨bid, btitle, bcols⟩ := b
  unfold serializeBoard deserializeBoard
  rw [deserializeColumns_serialize]

/-! ## Claim C7 -/

/-- Dynamic shape of the `columns` field of a decoded `board` object: the
source only checks `Array.isArray(state.board.columns)`, so the field is
either a sequence of columns or some non-sequence value. -/
inductive ColumnsField where
  | seq (cols : List Column)
  | nonSeq

/-- Decoded `board` object as inspected by `onRehydrateStorage`. -/
structure StoredBoard where
  id : String
  title : String
  columns : ColumnsField

/-- Decoded persisted state: the `board` field may be absent, matching the
`!state.board` check. -/
structure StoredState where
  board : Option StoredBoard

/-- The `onRehydrateStorage` validation from `useKanbanStore.ts`: if the slot
is absent (`!state`), the decoded value lacks a `board` field
(`!state.board`), or `board.columns` is not an array
(`!Array.isArray(state.board.columns)`), the stored data is discarded in
favour of the given default board; otherwise the stored board is kept. -/
def rehydrateBoard (defaultBoard : Board) (stored : Option StoredState) :
    Board :=
  match stored with
  | none => defaultBoard
  | some st =>
    match st.board with
    | none => defaultBoard
    | some sb =>
      match sb.columns with
      | .nonSeq => defaultBoard
      | .seq cols => { id := sb.id, title := sb.title, columns := cols }

/-- C7: at load time, if the persisted slot is absent, or the decoded value
lacks a `board` field, or its `board.columns` is not a sequence, the
persisted data is discarded and the store's board is the hard-coded default
board — which consists of the three empty columns To Do, In Progress and
Done. -/
theorem startup_fallback (i0 i1 i2 i3 : String) (stored : Option StoredState)
    (h : stored = none ∨ (∃ st, stored = some st ∧ st.board = none) ∨
      ∃ st sb, stored = some st ∧ st.board = some sb ∧
        sb.columns = ColumnsField.nonSeq) :
    rehydrateBoard (initialBoard i0 i1 i2 i3) stored =
        initialBoard i0 i1 i2 i3 ∧
      (initialBoard i0 i1 i2 i3).columns.map
          (fun c => (c.title, c.status, c.tasks)) =
        [("To Do", TaskStatus.todo, []), ("In Progress", TaskStatus.in_progress, []),
          ("Done", TaskStatus.done, [])] := by
  refine ⟨?_, rfl⟩
  rcases h with rfl | ⟨st, rfl, hb⟩ | ⟨st, sb, rfl, hb, hc⟩
  · rfl
  · obtain ⟨bo⟩ := st
    dsimp only at hb
    subst hb
    rfl
  · obtain ⟨bo⟩ := st
    dsimp only at hb
    subst hb
    obtain ⟨sid, stitle, scols⟩ := sb
    dsimp only at hc
    subst hc
    rfl

/-- Witness for C7: the absent-slot case. -/
theorem startup_fallback_witness :
    rehydrateBoard (initialBoard "b0" "c1" "c2" "c3")
        (none : Option StoredState) = initialBoard "b0" "c1" "c2" "c3" ∧
      (initialBoard "b0" "c1" "c2" "c3").columns.map
          (fun c => (c.title, c.status, c.tasks)) =
        [("To Do", TaskStatus.todo, []), ("In Progress", TaskStatus.in_progress, []),
          ("Done", TaskStatus.done, [])] :=
  startup_fallback "b0" "c1" "c2" "c3" none (Or.inl rfl)

end Kanban
